import Mathlib

/-!
Shallow embedding of the OMR_grading pipeline (src/src/*.py) in Lean 4,
together with theorems settling the frozen claims about its specification.

Conventions of the embedding:
* images and masks are `List (List ℕ)` of pixel intensities (row major);
* Python `float` arithmetic is idealised as exact rational arithmetic `ℚ`;
* Python `int(x)` (truncation toward zero) is `pyInt`;
* fallible code returns `Except String`.
-/

/-- Python `int()` applied to a float: truncation toward zero. -/
def pyInt (x : ℚ) : ℤ :=
  if x < 0 then -(Int.floor (-x)) else Int.floor x

theorem pyInt_intCast (z : ℤ) : pyInt (z : ℚ) = z := by
  unfold pyInt
  split
  · rw [show (-(z : ℚ)) = ((-z : ℤ) : ℚ) by push_cast; ring, Int.floor_intCast]; ring
  · rw [Int.floor_intCast]

theorem pyInt_nonneg {x : ℚ} (hx : 0 ≤ x) : 0 ≤ pyInt x := by
  unfold pyInt
  rw [if_neg (by linarith)]
  exact Int.floor_nonneg.mpr hx

theorem pyInt_of_nonneg {x : ℚ} (hx : 0 ≤ x) : pyInt x = Int.floor x := by
  unfold pyInt
  rw [if_neg (by linarith)]

theorem pyInt_le {x : ℚ} (hx : 0 ≤ x) : (pyInt x : ℚ) ≤ x := by
  rw [pyInt_of_nonneg hx]
  exact Int.floor_le x

/-- First index achieving the minimum of `f` over a list (`np.argmin`). -/
def argminIdx {α : Type} (f : α → ℚ) (d : α) : List α → ℕ
  | [] => 0
  | [_] => 0
  | x :: y :: rest =>
      let j := argminIdx f d (y :: rest)
      if f ((y :: rest).getD j d) < f x then j + 1 else 0

/-- First index achieving the maximum of `f` over a list (`np.argmax`). -/
def argmaxIdx {α : Type} (f : α → ℚ) (d : α) : List α → ℕ
  | [] => 0
  | [_] => 0
  | x :: y :: rest =>
      let j := argmaxIdx f d (y :: rest)
      if f x < f ((y :: rest).getD j d) then j + 1 else 0

theorem argminIdx_lt_length {α : Type} (f : α → ℚ) (d : α) :
    ∀ (l : List α), l ≠ [] → argminIdx f d l < l.length
  | [], h => absurd rfl h
  | [_], _ => by simp [argminIdx]
  | x :: y :: rest, _ => by
      have ih := argminIdx_lt_length f d (y :: rest) (by simp)
      unfold argminIdx
      dsimp only
      split
      · simpa using Nat.succ_lt_succ ih
      · simp

theorem argmaxIdx_lt_length {α : Type} (f : α → ℚ) (d : α) :
    ∀ (l : List α), l ≠ [] → argmaxIdx f d l < l.length
  | [], h => absurd rfl h
  | [_], _ => by simp [argmaxIdx]
  | x :: y :: rest, _ => by
      have ih := argmaxIdx_lt_length f d (y :: rest) (by simp)
      unfold argmaxIdx
      dsimp only
      split
      · simpa using Nat.succ_lt_succ ih
      · simp

theorem argminIdx_is_min {α : Type} (f : α → ℚ) (d : α) :
    ∀ (l : List α), ∀ a ∈ l, f (l.getD (argminIdx f d l) d) ≤ f a
  | [], a, ha => absurd ha (by simp)
  | [x], a, ha => by
      simp only [List.mem_singleton] at ha
      subst ha
      simp [argminIdx]
  | x :: y :: rest, a, ha => by
      have ih := argminIdx_is_min f d (y :: rest)
      unfold argminIdx
      dsimp only
      rcases List.mem_cons.mp ha with h1 | h2
      · subst h1
        split
        · rename_i hlt
          simpa using le_of_lt hlt
        · simp
      · split
        · rename_i hlt
          simpa using ih a h2
        · rename_i hnlt
          push_neg at hnlt
          simp only [List.getD_cons_zero]
          exact le_trans hnlt (ih a h2)

theorem argmaxIdx_is_max {α : Type} (f : α → ℚ) (d : α) :
    ∀ (l : List α), ∀ a ∈ l, f a ≤ f (l.getD (argmaxIdx f d l) d)
  | [], a, ha => absurd ha (by simp)
  | [x], a, ha => by
      simp only [List.mem_singleton] at ha
      subst ha
      simp [argmaxIdx]
  | x :: y :: rest, a, ha => by
      have ih := argmaxIdx_is_max f d (y :: rest)
      unfold argmaxIdx
      dsimp only
      rcases List.mem_cons.mp ha with h1 | h2
      · subst h1
        split
        · rename_i hlt
          simpa using le_of_lt hlt
        · simp
      · split
        · rename_i hlt
          simpa using ih a h2
        · rename_i hnlt
          push_neg at hnlt
          simp only [List.getD_cons_zero]
          exact le_trans (ih a h2) hnlt

/-! ## Grading (src/src/grading.py) -/

/-- GradingRule (grading.py lines 7-21): configurable point values. -/
structure GradingRule where
  correct_points : ℚ
  incorrect_points : ℚ
  no_answer_points : ℚ

/-- GradingRule.grade_question (grading.py lines 23-42). -/
def GradingRule.grade_question (r : GradingRule) (answer_index correct_index : ℤ) : ℚ :=
  if answer_index = -1 then r.no_answer_points
  else if answer_index = correct_index then r.correct_points
  else r.incorrect_points

/-- grade_student_answers (grading.py lines 45-75): zip the two answer
lists, score each pair (a literal `0.0` and the issue flag for ambiguous
`-2` codes, `grade_question` otherwise), and sum. -/
def grade_student_answers (student_answers correct_answers : List ℤ)
    (grading_rule : GradingRule) : List ℚ × ℚ × Bool :=
  let pairs := student_answers.zip correct_answers
  let question_scores := pairs.map (fun p =>
    if p.1 = -2 then (0 : ℚ) else grading_rule.grade_question p.1 p.2)
  let has_issues := pairs.any (fun p => p.1 = -2)
  (question_scores, question_scores.sum, has_issues)

/-! ## Mark classification (src/src/table_detection.py lines 275-300) -/

/-- Total pixel count of a cell image (`cell_image.size`; for the
rectangular arrays of the source this is height times width). -/
def cellSize (cell_image : List (List ℕ)) : ℕ :=
  (cell_image.map List.length).sum

/-- Count of foreground pixels, intensity strictly above the binarization
midpoint 128 (`np.sum(cell_image > 128)`). -/
def countInk (cell_image : List (List ℕ)) : ℕ :=
  (cell_image.map (fun row => (row.filter (fun px => 128 < px)).length)).sum

/-- detect_filled_cell (table_detection.py lines 275-300): a zero-area cell
is unfilled; otherwise filled iff the ink fraction reaches the threshold. -/
def detect_filled_cell (cell_image : List (List ℕ)) (ink_threshold : ℚ) : Bool :=
  if cellSize cell_image = 0 then false
  else decide (ink_threshold ≤ (countInk cell_image : ℚ) / (cellSize cell_image : ℚ))

/-! ## Dimension validation (src/src/table_detection.py lines 175-208) -/

/-- validate_table_dimensions (table_detection.py lines 175-208). -/
def validate_table_dimensions (horizontal_separators vertical_separators : List ℕ)
    (num_questions num_answers : ℕ) (table_format : String) : Bool × String :=
  let num_h_sep := horizontal_separators.length
  let num_v_sep := vertical_separators.length
  let expected_h := if table_format = "columns=questions" then num_answers + 2 else num_questions + 2
  let expected_v := if table_format = "columns=questions" then num_questions + 2 else num_answers + 2
  if num_h_sep ≠ expected_h then
    (false, "Horizontal separators mismatch: found " ++ toString num_h_sep ++
      ", expected " ++ toString expected_h)
  else if num_v_sep ≠ expected_v then
    (false, "Vertical separators mismatch: found " ++ toString num_v_sep ++
      ", expected " ++ toString expected_v)
  else (true, "Dimensions valid")

/-! ## Separator extraction (src/src/table_detection.py lines 8-172) -/

/-- Expected separator count along an axis (table_detection.py lines
117-126; the source treats any axis value other than "horizontal" as
vertical inside this helper, its caller having already validated it). -/
def expectedCount (axis : String) (num_questions num_answers : ℕ) (table_format : String) : ℕ :=
  if axis = "horizontal" then
    if table_format = "columns=questions" then num_answers + 2 else num_questions + 2
  else
    if table_format = "columns=questions" then num_questions + 2 else num_answers + 2

/-- Expected spacing between separators (table_detection.py line 129). -/
def expectedSpacing (size : ℕ) (ec : ℕ) : ℚ :=
  (size : ℚ) / ((ec : ℚ) - 1)

/-- Search-window half-width (table_detection.py line 133):
`int(expected_spacing * 0.4)`. -/
def windowSize (size : ℕ) (ec : ℕ) : ℤ :=
  pyInt (expectedSpacing size ec * (2 / 5))

/-- One window of the uniform-spacing search (table_detection.py lines
135-145): the clamped search window around expected position `i * spacing`
of half-width `ws`, yielding the argmax of the signal there, or nothing
when the clamped window is empty. -/
def usEntry (signal : List ℚ) (size : ℕ) (spacing : ℚ) (ws : ℤ) (i : ℕ) : Option ℕ :=
  let expected_pos : ℚ := (i : ℚ) * spacing
  let search_start : ℕ := (max 0 (pyInt (expected_pos - (ws : ℚ)))).toNat
  let search_end : ℤ := min (size : ℤ) (pyInt (expected_pos + (ws : ℚ)))
  if (search_start : ℤ) < search_end then
    some (search_start +
      argmaxIdx id 0 ((signal.drop search_start).take (search_end.toNat - search_start)))
  else none

/-- extract_separators_uniform_spacing (table_detection.py lines 91-147,
named `_extract_separators_uniform_spacing` in the source): for each of the
`expected_count` uniformly spaced expected positions, search the clamped
window of half-width `windowSize` and record the argmax of the signal
there; a window that clamps to empty contributes nothing. -/
def extract_separators_uniform_spacing (signal : List ℚ) (size : ℕ) (axis : String)
    (num_questions num_answers : ℕ) (table_format : String) : List ℕ :=
  let ec := expectedCount axis num_questions num_answers table_format
  (List.range ec).filterMap
    (usEntry signal size (expectedSpacing size ec) (windowSize size ec))

/-- Centroid of a peak cluster (table_detection.py lines 80, 85:
`int(np.mean(current_cluster))`; cluster entries are nonnegative pixel
coordinates, so the truncation is floor division). -/
def clusterCentroid (cluster : List ℕ) : ℕ :=
  cluster.sum / cluster.length

/-- Loop body of merge_peaks: `cluster` is the current cluster (in input
order), `prev` its last element, `rest` the remaining peaks. -/
def mergePeaksGo (cluster : List ℕ) (prev : ℕ) : List ℕ → List ℕ
  | [] => [clusterCentroid cluster]
  | p :: ps =>
      if (p : ℤ) - (prev : ℤ) ≤ 5 then mergePeaksGo (cluster ++ [p]) p ps
      else clusterCentroid cluster :: mergePeaksGo [p] p ps

/-- merge_peaks (table_detection.py lines 57-88, source name `_merge_peaks`,
gap_threshold 5): merge runs of peaks whose consecutive gaps are at most 5
into single separators at the cluster centroid. -/
def merge_peaks : List ℕ → List ℕ
  | [] => []
  | p :: ps => mergePeaksGo [p] p ps

/-- extract_separators_peak_detection (table_detection.py lines 150-172,
source name `_extract_separators_peak_detection`): threshold the normalized
signal at 0.3, collect the coordinates above threshold (`np.where`, in
increasing order), fail when there are none, else merge adjacent peaks. -/
def extract_separators_peak_detection (signal : List ℚ) : Except String (List ℕ) :=
  let peaks := (List.range signal.length).filter (fun i => (3 : ℚ) / 10 < signal.getD i 0)
  if peaks.isEmpty then
    Except.error "No peaks found in signal - grid mask may be empty"
  else
    Except.ok (merge_peaks peaks)

/-- Width of a mask (`grid_mask.shape[1]`; source masks are rectangular). -/
def maskWidth (grid_mask : List (List ℕ)) : ℕ :=
  (grid_mask.headD []).length

/-- Column sum of a mask (`np.sum(grid_mask, axis=0)` entry `j`). -/
def maskColSum (grid_mask : List (List ℕ)) (j : ℕ) : ℕ :=
  (grid_mask.map (fun row => row.getD j 0)).sum

/-- Signal size along an axis (table_detection.py lines 34 and 38). -/
def sepAxisSize (grid_mask : List (List ℕ)) (axis : String) : ℕ :=
  if axis = "horizontal" then grid_mask.length else maskWidth grid_mask

/-- extract_separators (table_detection.py lines 8-54): collapse the mask
to a 1-D signal along the chosen axis, normalize by the maximum (the source
evaluates `np.max` first, which fails on an empty signal), then use uniform
spacing when the table dimensions are supplied (Python truthiness: nonzero
counts and a nonempty format string) and peak detection otherwise. -/
def extract_separators (grid_mask : List (List ℕ)) (axis : String)
    (num_questions num_answers : ℕ) (table_format : String) : Except String (List ℕ) :=
  if axis = "horizontal" ∨ axis = "vertical" then
    let signal0 : List ℚ :=
      if axis = "horizontal" then grid_mask.map (fun row => (row.sum : ℚ))
      else (List.range (maskWidth grid_mask)).map (fun j => (maskColSum grid_mask j : ℚ))
    let size := sepAxisSize grid_mask axis
    if signal0.isEmpty then
      Except.error "zero-size array to reduction operation maximum which has no identity"
    else
      let mx := signal0.foldr max 0
      let signal := if 0 < mx then signal0.map (fun s => s / mx) else signal0
      if num_questions ≠ 0 ∧ num_answers ≠ 0 ∧ table_format ≠ "" then
        Except.ok (extract_separators_uniform_spacing signal size axis
          num_questions num_answers table_format)
      else
        extract_separators_peak_detection signal
  else
    Except.error ("Invalid axis: " ++ axis)

/-! ## Cell extraction (src/src/table_detection.py lines 211-272) and the
answer loop (src/src/omr_grader.py lines 259-309) -/

/-- Numpy-style 2-D slice `img[y1:y2, x1:x2]` with nonnegative bounds. -/
def slice2d (img : List (List ℕ)) (y1 y2 x1 x2 : ℕ) : List (List ℕ) :=
  ((img.drop y1).take (y2 - y1)).map (fun row => (row.drop x1).take (x2 - x1))

/-- extract_cell_regions (table_detection.py lines 211-244): sort both
separator lists, then cut the rectified image into the cells bounded by
consecutive separators. -/
def extract_cell_regions (rectified_image : List (List ℕ))
    (horizontal_separators vertical_separators : List ℕ) : List (List (List (List ℕ))) :=
  let h_sep := horizontal_separators.insertionSort (· ≤ ·)
  let v_sep := vertical_separators.insertionSort (· ≤ ·)
  (List.range (h_sep.length - 1)).map (fun i =>
    (List.range (v_sep.length - 1)).map (fun j =>
      slice2d rectified_image (h_sep.getD i 0) (h_sep.getD (i + 1) 0)
        (v_sep.getD j 0) (v_sep.getD (j + 1) 0)))

/-- get_question_cells (table_detection.py lines 247-272): the ordered
answer cells of one question, skipping the header row/column. The source
raises ValueError on any other format string; the callers validate the
format beforehand (omr_grader.py lines 70-71), so that branch is modelled
as returning no cells. -/
def get_question_cells (cell_grid : List (List (List (List ℕ)))) (question_index : ℕ)
    (table_format : String) : List (List (List ℕ)) :=
  if table_format = "columns=questions" then
    (cell_grid.drop 1).map (fun row => row.getD (question_index + 1) [])
  else if table_format = "rows=questions" then
    (cell_grid.getD (question_index + 1) []).drop 1
  else []

/-- Modelled from the spec: `trim_cell_borders` is imported from
src.table_detection at omr_grader.py line 23 and called at line 292, but its
definition is not among the provided sources. Per spec section 4.7 ("each
cell sub-image is trimmed by a configurable margin percentage on all sides
(inward)") and the caller in debug_visualization.py lines 244-256 (which
offsets each side by `int(extent * cell_margin_trim / 100)`), the cell
loses `int(height * margin_percent / 100)` rows at the top and at the
bottom and `int(width * margin_percent / 100)` columns at the left and at
the right. -/
def trim_cell_borders (cell : List (List ℕ)) (margin_percent : ℚ) : List (List ℕ) :=
  let h := cell.length
  let w := (cell.headD []).length
  let ty := (pyInt ((h : ℚ) * margin_percent / 100)).toNat
  let tx := (pyInt ((w : ℚ) * margin_percent / 100)).toNat
  slice2d cell ty (h - ty) tx (w - tx)

/-- Per-question filled-option indices (omr_grader.py lines 289-295): the
indices `a_idx` whose trimmed cell is classified filled, in enumeration
order; `detect_filled_cell` is called with its default threshold 0.15. -/
def filledIndicesOfCells (question_cells : List (List (List ℕ))) (cell_margin_trim : ℚ) : List ℕ :=
  (question_cells.enum.filter (fun p =>
    detect_filled_cell (trim_cell_borders p.2 cell_margin_trim) (3 / 20))).map (fun p => p.1)

/-- Answer Aggregator (omr_grader.py lines 297-307) stated on the
per-option filled/unfilled boolean list: no filled option gives -1, a
unique filled option gives its index, two or more give -2. -/
def resolve_answer (filled : List Bool) : ℤ :=
  let filled_indices := (filled.enum.filter (fun p => p.2)).map (fun p => p.1)
  if filled_indices.length = 0 then -1
  else if filled_indices.length = 1 then (filled_indices.headD 0 : ℤ)
  else -2

/-- One iteration of the question loop of _extract_student_answers
(omr_grader.py lines 285-307): append the resolved answer code of question
`q_idx` and update the page-level ambiguous flag. -/
def esaStep (cell_grid : List (List (List (List ℕ)))) (cell_margin_trim : ℚ)
    (table_format : String) (acc : List ℤ × Bool) (q_idx : ℕ) : List ℤ × Bool :=
  let question_cells := get_question_cells cell_grid q_idx table_format
  let filled_indices := filledIndicesOfCells question_cells cell_margin_trim
  if filled_indices.length = 0 then (acc.1 ++ [-1], acc.2)
  else if filled_indices.length = 1 then (acc.1 ++ [(filled_indices.headD 0 : ℤ)], acc.2)
  else (acc.1 ++ [-2], true)

/-- extract_student_answers (omr_grader.py lines 259-309, source name
`_extract_student_answers`, its preprocessing branch already applied): cut
the rectified image into cells, and for each question collect the filled
option indices and resolve them into one answer code, accumulating the
page-level ambiguous flag. -/
def extract_student_answers (rectified_image : List (List ℕ))
    (horizontal_separators vertical_separators : List ℕ) (cell_margin_trim : ℚ)
    (num_questions : ℕ) (table_format : String) : List ℤ × Bool :=
  let cell_grid := extract_cell_regions rectified_image horizontal_separators vertical_separators
  (List.range num_questions).foldl (esaStep cell_grid cell_margin_trim table_format) ([], false)

/-! ## Corner ordering (src/src/image_preprocessing.py lines 149-174) -/

/-- Coordinate sum of a corner point stored as (x, y) (`pts.sum(axis=1)`). -/
def ptSum (p : ℚ × ℚ) : ℚ := p.1 + p.2

/-- Coordinate difference of a corner point stored as (x, y)
(`np.diff(pts, axis=1)`, second coordinate minus first, that is row minus
column for image points). -/
def ptDiff (p : ℚ × ℚ) : ℚ := p.2 - p.1

/-- order_corners (image_preprocessing.py lines 149-174): top-left is the
argmin of the coordinate sums, bottom-right the argmax, top-right the
argmin of the differences, bottom-left the argmax; output order is
[top-left, top-right, bottom-right, bottom-left]. -/
def order_corners (corners : List (ℚ × ℚ)) : List (ℚ × ℚ) :=
  let d : ℚ × ℚ := (0, 0)
  let tl := corners.getD (argminIdx ptSum d corners) d
  let br := corners.getD (argmaxIdx ptSum d corners) d
  let tr := corners.getD (argminIdx ptDiff d corners) d
  let bl := corners.getD (argmaxIdx ptDiff d corners) d
  [tl, tr, br, bl]

/-! ## Result export (src/src/grading.py lines 78-121 and
src/src/omr_grader.py lines 393-401) -/

/-- StudentResult fields (grading.py lines 78-94). -/
structure StudentResult where
  student_id : String
  question_scores : List ℚ
  total_score : ℚ
  has_extraction_issues : Bool
  has_ambiguous_answers : Bool
  error_message : String

/-- StudentResult._get_issues_flag (grading.py lines 110-120). -/
def StudentResult.getIssuesFlag (r : StudentResult) : String :=
  let flags :=
    (if r.has_extraction_issues then ["extraction_issues"] else []) ++
    (if r.has_ambiguous_answers then ["ambiguous_answers"] else []) ++
    (if r.error_message ≠ "" then [r.error_message] else [])
  if flags.isEmpty then "OK" else String.intercalate "; " flags

/-- Value of one exported dictionary entry. -/
inductive CellValue where
  | str (s : String)
  | num (q : ℚ)
deriving DecidableEq

/-- StudentResult.to_dict (grading.py lines 96-108) as the insertion-ordered
association list of the Python dict it builds: student_id, total_score and
issues are inserted first, the per-question scores are appended after. -/
def StudentResult.to_dict (r : StudentResult) : List (String × CellValue) :=
  [("student_id", CellValue.str r.student_id),
   ("total_score", CellValue.num r.total_score),
   ("issues", CellValue.str r.getIssuesFlag)] ++
  r.question_scores.enum.map (fun p =>
    ("question_" ++ toString (p.1 + 1) ++ "_score", CellValue.num p.2))

/-- Column order of `pd.DataFrame(list_of_dicts)` as used by
_results_to_dataframe (omr_grader.py lines 393-401): the union of the row
dictionaries keys in order of first appearance. -/
def dataframeColumns (rows : List (List (String × CellValue))) : List String :=
  rows.foldl (fun acc row =>
    acc ++ (row.map Prod.fst).filter (fun k => ¬ acc.contains k)) []

/-! ## Theorems -/

/-- Claim C10: grade_student_answers zips the two lists, so its
question_scores list has length `min` of the input lengths (surplus entries
of the longer list are silently ignored), and the returned total_score is
the sum of the returned question_scores. -/
theorem C10_grade_truncates_and_total_is_sum (student_answers correct_answers : List ℤ)
    (rule : GradingRule) :
    (grade_student_answers student_answers correct_answers rule).1.length =
      min student_answers.length correct_answers.length ∧
    (grade_student_answers student_answers correct_answers rule).2.1 =
      (grade_student_answers student_answers correct_answers rule).1.sum := by
  unfold grade_student_answers
  constructor
  · simp [List.length_zip]
  · rfl

/-- Claim C8: for every zipped (student answer, correct answer) pair, the
score is 0 (the no-penalty value) with the issues flag raised when the
answer is the ambiguous code -2, the configured no_answer_points when it is
-1, correct_points when it equals the correct index, and incorrect_points
otherwise. -/
theorem C8_ambiguous_scores_zero_and_flags (student_answers correct_answers : List ℤ)
    (rule : GradingRule) (i : ℕ) (a c : ℤ)
    (h : (student_answers.zip correct_answers)[i]? = some (a, c)) :
    (grade_student_answers student_answers correct_answers rule).1[i]? =
      some (if a = -2 then (0 : ℚ)
            else if a = -1 then rule.no_answer_points
            else if a = c then rule.correct_points
            else rule.incorrect_points) ∧
    (a = -2 → (grade_student_answers student_answers correct_answers rule).2.2 = true) := by
  unfold grade_student_answers
  dsimp only
  constructor
  · rw [List.getElem?_map, h]
    rfl
  · intro ha
    have hmem : (a, c) ∈ student_answers.zip correct_answers := List.getElem?_mem h
    apply List.any_eq_true.mpr
    exact ⟨(a, c), hmem, by simp [ha]⟩

/-- Witness for C8 at a concrete input: student [-2, 0, -1, 1] against
correct [0, 0, 0, 0] with rule (1, -1/4, 1/2): the ambiguous first answer
scores 0 and raises the flag, the others score per the rule. -/
theorem C8_witness :
    (grade_student_answers [-2, 0, -1, 1] [0, 0, 0, 0] ⟨1, -1/4, 1/2⟩).1[0]? = some (0 : ℚ) ∧
    (grade_student_answers [-2, 0, -1, 1] [0, 0, 0, 0] ⟨1, -1/4, 1/2⟩).2.2 = true ∧
    (grade_student_answers [-2, 0, -1, 1] [0, 0, 0, 0] ⟨1, -1/4, 1/2⟩).1[1]? = some (1 : ℚ) ∧
    (grade_student_answers [-2, 0, -1, 1] [0, 0, 0, 0] ⟨1, -1/4, 1/2⟩).1[2]? = some ((1 : ℚ)/2) ∧
    (grade_student_answers [-2, 0, -1, 1] [0, 0, 0, 0] ⟨1, -1/4, 1/2⟩).1[3]? = some ((-1 : ℚ)/4) := by
  refine ⟨?_, ?_, ?_, ?_, ?_⟩
  · have h := C8_ambiguous_scores_zero_and_flags [-2, 0, -1, 1] [0, 0, 0, 0] ⟨1, -1/4, 1/2⟩
      0 (-2) 0 (by decide)
    simpa using h.1
  · exact (C8_ambiguous_scores_zero_and_flags [-2, 0, -1, 1] [0, 0, 0, 0] ⟨1, -1/4, 1/2⟩
      0 (-2) 0 (by decide)).2 rfl
  · have h := C8_ambiguous_scores_zero_and_flags [-2, 0, -1, 1] [0, 0, 0, 0] ⟨1, -1/4, 1/2⟩
      1 0 0 (by decide)
    simpa using h.1
  · have h := C8_ambiguous_scores_zero_and_flags [-2, 0, -1, 1] [0, 0, 0, 0] ⟨1, -1/4, 1/2⟩
      2 (-1) 0 (by decide)
    simpa using h.1
  · have h := C8_ambiguous_scores_zero_and_flags [-2, 0, -1, 1] [0, 0, 0, 0] ⟨1, -1/4, 1/2⟩
      3 1 0 (by decide)
    simpa using h.1

/-- Claim C7: detect_filled_cell returns true iff the fraction of pixels
above the binarization midpoint 128 reaches the threshold; a zero-area cell
always yields false; classification is a pure function of the pixel data
and the threshold, and at a fixed threshold a cell with a larger ink
fraction is never classified unfilled when one with a smaller fraction is
classified filled. -/
theorem C7_detect_filled_cell_spec :
    (∀ (cell : List (List ℕ)) (t : ℚ), cellSize cell = 0 →
      detect_filled_cell cell t = false) ∧
    (∀ (cell : List (List ℕ)) (t : ℚ), cellSize cell ≠ 0 →
      (detect_filled_cell cell t = true ↔
        t ≤ (countInk cell : ℚ) / (cellSize cell : ℚ))) ∧
    (∀ (c1 c2 : List (List ℕ)) (t : ℚ), cellSize c1 ≠ 0 → cellSize c2 ≠ 0 →
      (countInk c1 : ℚ) / (cellSize c1 : ℚ) ≤ (countInk c2 : ℚ) / (cellSize c2 : ℚ) →
      detect_filled_cell c1 t = true → detect_filled_cell c2 t = true) := by
  have hzero : ∀ (cell : List (List ℕ)) (t : ℚ), cellSize cell = 0 →
      detect_filled_cell cell t = false := by
    intro cell t h
    simp [detect_filled_cell, h]
  have hiff : ∀ (cell : List (List ℕ)) (t : ℚ), cellSize cell ≠ 0 →
      (detect_filled_cell cell t = true ↔
        t ≤ (countInk cell : ℚ) / (cellSize cell : ℚ)) := by
    intro cell t h
    simp [detect_filled_cell, h]
  refine ⟨hzero, hiff, ?_⟩
  intro c1 c2 t h1 h2 hle hfill
  exact (hiff c2 t h2).mpr (le_trans ((hiff c1 t h1).mp hfill) hle)

/-- Witness for C7 at concrete inputs: the empty cell is unfilled, a cell
of one inked pixel is filled at threshold 0.15, and monotonicity applied to
a half-inked and a fully-inked 2-pixel cell. -/
theorem C7_witness :
    detect_filled_cell [] (3 / 20) = false ∧
    detect_filled_cell [[200]] (3 / 20) = true ∧
    detect_filled_cell [[255, 255]] (3 / 20) = true := by
  refine ⟨?_, ?_, ?_⟩
  · exact C7_detect_filled_cell_spec.1 [] (3 / 20) rfl
  · exact (C7_detect_filled_cell_spec.2.1 [[200]] (3 / 20) (by decide)).mpr (by norm_num [countInk, cellSize])
  · exact C7_detect_filled_cell_spec.2.2 [[0, 255]] [[255, 255]] (3 / 20) (by decide) (by decide)
      (by norm_num [countInk, cellSize])
      ((C7_detect_filled_cell_spec.2.1 [[0, 255]] (3 / 20) (by decide)).mpr
        (by norm_num [countInk, cellSize]))

/-- Claim C3: for the two supported formats, validate_table_dimensions
passes iff both separator counts equal the format-derived expectations, and
any mismatch yields failure with a message naming the mismatched axis and
the found and expected counts (the horizontal axis is checked first). -/
theorem C3_validate_table_dimensions_spec (hs vs : List ℕ) (nQ nA : ℕ) (fmt : String)
    (_hfmt : fmt = "columns=questions" ∨ fmt = "rows=questions") :
    ((validate_table_dimensions hs vs nQ nA fmt).1 = true ↔
      (hs.length = (if fmt = "columns=questions" then nA + 2 else nQ + 2) ∧
       vs.length = (if fmt = "columns=questions" then nQ + 2 else nA + 2))) ∧
    (hs.length ≠ (if fmt = "columns=questions" then nA + 2 else nQ + 2) →
      validate_table_dimensions hs vs nQ nA fmt =
        (false, "Horizontal separators mismatch: found " ++ toString hs.length ++
          ", expected " ++ toString (if fmt = "columns=questions" then nA + 2 else nQ + 2))) ∧
    (hs.length = (if fmt = "columns=questions" then nA + 2 else nQ + 2) →
      vs.length ≠ (if fmt = "columns=questions" then nQ + 2 else nA + 2) →
      validate_table_dimensions hs vs nQ nA fmt =
        (false, "Vertical separators mismatch: found " ++ toString vs.length ++
          ", expected " ++ toString (if fmt = "columns=questions" then nQ + 2 else nA + 2))) := by
  unfold validate_table_dimensions
  dsimp only
  by_cases hh : hs.length = (if fmt = "columns=questions" then nA + 2 else nQ + 2)
  · by_cases hv : vs.length = (if fmt = "columns=questions" then nQ + 2 else nA + 2)
    · rw [if_neg (by simpa using hh), if_neg (by simpa using hv)]
      exact ⟨by simp [hh, hv], fun h => absurd hh h, fun _ h => absurd hv h⟩
    · rw [if_neg (by simpa using hh), if_pos (by simpa using hv)]
      exact ⟨by simp [hv], fun h => absurd hh h, fun _ _ => rfl⟩
  · rw [if_pos (by simpa using hh)]
    exact ⟨by simp [hh], fun _ => rfl, fun h => absurd h hh⟩

/-- Witness for C3 at concrete inputs: a 3-question, 4-answer
columns=questions table passes with 6 horizontal and 5 vertical separators,
and fails with the horizontal message when one horizontal separator is
missing. -/
theorem C3_witness :
    (validate_table_dimensions [0, 10, 20, 30, 40, 50] [0, 10, 20, 30, 40] 3 4
      "columns=questions").1 = true ∧
    validate_table_dimensions [0, 10, 20, 30, 40] [0, 10, 20, 30, 40] 3 4
      "columns=questions" =
      (false, "Horizontal separators mismatch: found 5, expected 6") := by
  constructor
  · exact (C3_validate_table_dimensions_spec [0, 10, 20, 30, 40, 50] [0, 10, 20, 30, 40] 3 4
      "columns=questions" (Or.inl rfl)).1.mpr (by decide)
  · have h := (C3_validate_table_dimensions_spec [0, 10, 20, 30, 40] [0, 10, 20, 30, 40] 3 4
      "columns=questions" (Or.inl rfl)).2.1 (by decide)
    simpa using h

/-- Claim C9 (code_bug evidence): for the concrete StudentResult with
identifier student_001 and two question scores, the exported row's columns
come out as [student_id, total_score, issues, question_1_score,
question_2_score]: to_dict inserts total_score and issues before the
per-question scores, so the column order is NOT identifier, question
scores, total, issues as the claim (and the repository's own
QUICK_REFERENCE.py CSV sample) states. -/
theorem C9_column_order_diverges :
    (StudentResult.to_dict
      ⟨"student_001", [1, 3/4], 7/4, false, false, ""⟩).map Prod.fst =
      ["student_id", "total_score", "issues", "question_1_score", "question_2_score"] ∧
    dataframeColumns [StudentResult.to_dict
      ⟨"student_001", [1, 3/4], 7/4, false, false, ""⟩] =
      ["student_id", "total_score", "issues", "question_1_score", "question_2_score"] ∧
    ["student_id", "total_score", "issues", "question_1_score", "question_2_score"] ≠
      ["student_id", "question_1_score", "question_2_score", "total_score", "issues"] := by
  refine ⟨by rfl, by rfl, by decide⟩

/-- The element selected by argminIdx is a member of the list. -/
theorem getD_argminIdx_mem {α : Type} (f : α → ℚ) (d : α) (l : List α) (hne : l ≠ []) :
    l.getD (argminIdx f d l) d ∈ l := by
  have h := argminIdx_lt_length f d l hne
  rw [List.getD_eq_getElem l d h]
  exact List.getElem_mem h

/-- The element selected by argmaxIdx is a member of the list. -/
theorem getD_argmaxIdx_mem {α : Type} (f : α → ℚ) (d : α) (l : List α) (hne : l ≠ []) :
    l.getD (argmaxIdx f d l) d ∈ l := by
  have h := argmaxIdx_lt_length f d l hne
  rw [List.getD_eq_getElem l d h]
  exact List.getElem_mem h

/-- With a unique strict minimizer, argminIdx selects exactly it. -/
theorem getD_argminIdx_eq {α : Type} (f : α → ℚ) (d : α) (l : List α) (a : α)
    (ha : a ∈ l) (huniq : ∀ p ∈ l, p ≠ a → f a < f p) :
    l.getD (argminIdx f d l) d = a := by
  have hne : l ≠ [] := List.ne_nil_of_mem ha
  by_contra hcon
  have h1 := huniq _ (getD_argminIdx_mem f d l hne) hcon
  have h2 := argminIdx_is_min f d l a ha
  linarith

/-- With a unique strict maximizer, argmaxIdx selects exactly it. -/
theorem getD_argmaxIdx_eq {α : Type} (f : α → ℚ) (d : α) (l : List α) (a : α)
    (ha : a ∈ l) (huniq : ∀ p ∈ l, p ≠ a → f p < f a) :
    l.getD (argmaxIdx f d l) d = a := by
  have hne : l ≠ [] := List.ne_nil_of_mem ha
  by_contra hcon
  have h1 := huniq _ (getD_argmaxIdx_mem f d l hne) hcon
  have h2 := argmaxIdx_is_max f d l a ha
  linarith

/-- Claim C6: for four points with unique extrema (as in any convex
quadrilateral in general position), order_corners is invariant under input
permutation and assigns the roles by the coordinate rules: top-left is the
point of smallest coordinate sum, bottom-right of largest sum, top-right of
smallest row-minus-column difference, bottom-left of largest. -/
theorem C6_order_corners_permutation_invariant (l l2 : List (ℚ × ℚ)) (a b c d : ℚ × ℚ)
    (hperm : l.Perm l2)
    (ha : a ∈ l) (haMin : ∀ p ∈ l, p ≠ a → ptSum a < ptSum p)
    (hb : b ∈ l) (hbMin : ∀ p ∈ l, p ≠ b → ptDiff b < ptDiff p)
    (hc : c ∈ l) (hcMax : ∀ p ∈ l, p ≠ c → ptSum p < ptSum c)
    (hd : d ∈ l) (hdMax : ∀ p ∈ l, p ≠ d → ptDiff p < ptDiff d) :
    order_corners l = [a, b, c, d] ∧ order_corners l2 = [a, b, c, d] := by
  have key : ∀ (m : List (ℚ × ℚ)), a ∈ m → (∀ p ∈ m, p ≠ a → ptSum a < ptSum p) →
      b ∈ m → (∀ p ∈ m, p ≠ b → ptDiff b < ptDiff p) →
      c ∈ m → (∀ p ∈ m, p ≠ c → ptSum p < ptSum c) →
      d ∈ m → (∀ p ∈ m, p ≠ d → ptDiff p < ptDiff d) →
      order_corners m = [a, b, c, d] := by
    intro m ha' haMin' hb' hbMin' hc' hcMax' hd' hdMax'
    unfold order_corners
    dsimp only
    rw [getD_argminIdx_eq ptSum (0, 0) m a ha' haMin',
        getD_argmaxIdx_eq ptSum (0, 0) m c hc' hcMax',
        getD_argminIdx_eq ptDiff (0, 0) m b hb' hbMin',
        getD_argmaxIdx_eq ptDiff (0, 0) m d hd' hdMax']
  refine ⟨key l ha haMin hb hbMin hc hcMax hd hdMax, ?_⟩
  exact key l2 (hperm.mem_iff.mp ha)
    (fun p hp => haMin p (hperm.mem_iff.mpr hp))
    (hperm.mem_iff.mp hb) (fun p hp => hbMin p (hperm.mem_iff.mpr hp))
    (hperm.mem_iff.mp hc) (fun p hp => hcMax p (hperm.mem_iff.mpr hp))
    (hperm.mem_iff.mp hd) (fun p hp => hdMax p (hperm.mem_iff.mpr hp))

/-- Witness for C6 at a concrete convex quadrilateral: the corners of a
skewed quadrilateral, fed in two different input orders, are assigned the
same roles. -/
theorem C6_witness :
    order_corners [(10, 1), (0, 0), (1, 9), (11, 10)] =
      [(0, 0), (10, 1), (11, 10), (1, 9)] ∧
    order_corners [(11, 10), (1, 9), (0, 0), (10, 1)] =
      [(0, 0), (10, 1), (11, 10), (1, 9)] := by
  exact C6_order_corners_permutation_invariant
    [(10, 1), (0, 0), (1, 9), (11, 10)] [(11, 10), (1, 9), (0, 0), (10, 1)]
    (0, 0) (10, 1) (11, 10) (1, 9)
    (by simpa using (List.reverse_perm [(10, 1), (0, 0), (1, 9), (11, 10)]).symm)
    (by simp)
    (by intro p hp hne; fin_cases hp <;>
      first | exact absurd rfl hne | norm_num [ptSum])
    (by simp)
    (by intro p hp hne; fin_cases hp <;>
      first | exact absurd rfl hne | norm_num [ptDiff])
    (by simp)
    (by intro p hp hne; fin_cases hp <;>
      first | exact absurd rfl hne | norm_num [ptSum])
    (by simp)
    (by intro p hp hne; fin_cases hp <;>
      first | exact absurd rfl hne | norm_num [ptDiff])

/-- The per-question filled indices computed from the cells coincide with
the filled indices of the per-option boolean classification list. -/
theorem filledIndicesOfCells_eq_bool (cells : List (List (List ℕ))) (m : ℚ) :
    filledIndicesOfCells cells m =
      (((cells.map (fun cell =>
          detect_filled_cell (trim_cell_borders cell m) (3 / 20))).enum.filter
        (fun p => p.2)).map (fun p => p.1)) := by
  unfold filledIndicesOfCells
  rw [List.enum_map, List.filter_map, List.map_map]
  congr 1

/-- One loop iteration appends the resolved answer code of the question's
boolean classification list and ors the -2 test into the ambiguous flag. -/
theorem esaStep_eq (grid : List (List (List (List ℕ)))) (m : ℚ) (fmt : String)
    (acc : List ℤ × Bool) (q : ℕ) :
    esaStep grid m fmt acc q =
      (acc.1 ++ [resolve_answer ((get_question_cells grid q fmt).map
          (fun cell => detect_filled_cell (trim_cell_borders cell m) (3 / 20)))],
       acc.2 || decide (resolve_answer ((get_question_cells grid q fmt).map
          (fun cell => detect_filled_cell (trim_cell_borders cell m) (3 / 20))) = -2)) := by
  unfold esaStep resolve_answer
  dsimp only
  rw [← filledIndicesOfCells_eq_bool]
  by_cases h0 : (filledIndicesOfCells (get_question_cells grid q fmt) m).length = 0
  · simp [h0]
  · by_cases h1 : (filledIndicesOfCells (get_question_cells grid q fmt) m).length = 1
    · have hne : ((filledIndicesOfCells (get_question_cells grid q fmt) m).headD 0 : ℤ) ≠ -2 := by
        omega
      simp [h0, h1, hne]
    · simp [h0, h1]

/-- Unrolling of the question loop of extract_student_answers over an
arbitrary accumulator. -/
theorem esa_foldl (grid : List (List (List (List ℕ)))) (m : ℚ) (fmt : String) :
    ∀ (n : ℕ) (acc : List ℤ × Bool),
    (List.range n).foldl (esaStep grid m fmt) acc =
      (acc.1 ++ (List.range n).map (fun q => resolve_answer
          ((get_question_cells grid q fmt).map
            (fun cell => detect_filled_cell (trim_cell_borders cell m) (3 / 20)))),
       acc.2 || (List.range n).any (fun q => decide (resolve_answer
          ((get_question_cells grid q fmt).map
            (fun cell => detect_filled_cell (trim_cell_borders cell m) (3 / 20))) = -2))) := by
  intro n
  induction n with
  | zero => intro acc; simp
  | succ k ih =>
      intro acc
      rw [List.range_succ, List.foldl_append, ih]
      simp only [List.foldl_cons, List.foldl_nil, esaStep_eq, List.map_append, List.any_append,
        List.map_cons, List.map_nil, List.any_cons, List.any_nil, List.append_assoc,
        Bool.or_assoc, Bool.or_false]

/-- Characterization of extract_student_answers: the answer list is the
per-question resolution of the boolean classification lists, and the
page-level ambiguous flag is set exactly when some answer code is -2. -/
theorem extract_student_answers_spec (img : List (List ℕ)) (hs vs : List ℕ) (m : ℚ)
    (nQ : ℕ) (fmt : String) :
    (extract_student_answers img hs vs m nQ fmt).1 =
      (List.range nQ).map (fun q => resolve_answer
        ((get_question_cells (extract_cell_regions img hs vs) q fmt).map
          (fun cell => detect_filled_cell (trim_cell_borders cell m) (3 / 20)))) ∧
    ((extract_student_answers img hs vs m nQ fmt).2 = true ↔
      (-2 : ℤ) ∈ (extract_student_answers img hs vs m nQ fmt).1) := by
  unfold extract_student_answers
  dsimp only
  rw [esa_foldl]
  refine ⟨by simp, ?_⟩
  simp only [Bool.false_or, List.any_eq_true, List.mem_range, List.nil_append, List.mem_map,
    decide_eq_true_eq]

/-- Entry lookup of a 2-D slice below the row bound. -/
theorem slice2d_getElem? (img : List (List ℕ)) (y1 y2 x1 x2 i : ℕ) (hi : i < y2 - y1) :
    (slice2d img y1 y2 x1 x2)[i]? =
      (img[y1 + i]?).map (fun row => (row.drop x1).take (x2 - x1)) := by
  unfold slice2d
  rw [List.getElem?_map, List.getElem?_take_of_lt hi, List.getElem?_drop]

/-- Number of rows of a 2-D slice. -/
theorem slice2d_length (img : List (List ℕ)) (y1 y2 x1 x2 : ℕ) :
    (slice2d img y1 y2 x1 x2).length = min (y2 - y1) (img.length - y1) := by
  unfold slice2d
  simp

/-- The per-side trim amounts of trim_cell_borders, as naturals. -/
theorem trim_cell_borders_eq (cell : List (List ℕ)) (m : ℚ) :
    trim_cell_borders cell m =
      slice2d cell ((pyInt ((cell.length : ℚ) * m / 100)).toNat)
        (cell.length - (pyInt ((cell.length : ℚ) * m / 100)).toNat)
        ((pyInt (((cell.headD []).length : ℚ) * m / 100)).toNat)
        ((cell.headD []).length - (pyInt (((cell.headD []).length : ℚ) * m / 100)).toNat) := rfl

/-- Claim C1: every cell processed by the question loop is passed to
detect_filled_cell only after trim_cell_borders(cell, cell_margin_trim)
(first conjunct: the q-th answer is resolved from exactly those
classifications), and trim_cell_borders (modelled from the spec, its
definition being absent from the provided sources) shrinks the cell inward
on all four sides by the margin percentage: the top and bottom each lose
`int(height * margin / 100)` rows, the left and right each lose
`int(width * margin / 100)` columns, and the surviving pixels are the
correspondingly shifted pixels of the original cell. -/
theorem C1_trim_before_classify (img : List (List ℕ)) (hs vs : List ℕ) (margin : ℚ)
    (nQ : ℕ) (fmt : String) (q : ℕ) (hq : q < nQ) :
    (extract_student_answers img hs vs margin nQ fmt).1[q]? =
      some (resolve_answer
        ((get_question_cells (extract_cell_regions img hs vs) q fmt).map
          (fun cell => detect_filled_cell (trim_cell_borders cell margin) (3 / 20)))) ∧
    (∀ (cell : List (List ℕ)) (ty tx : ℕ),
      (∀ row ∈ cell, row.length = (cell.headD []).length) →
      ty = (pyInt ((cell.length : ℚ) * margin / 100)).toNat →
      tx = (pyInt (((cell.headD []).length : ℚ) * margin / 100)).toNat →
      (trim_cell_borders cell margin).length = cell.length - 2 * ty ∧
      (∀ row ∈ trim_cell_borders cell margin,
        row.length = (cell.headD []).length - 2 * tx) ∧
      (∀ i j, i < cell.length - 2 * ty → j < (cell.headD []).length - 2 * tx →
        ((trim_cell_borders cell margin).getD i []).getD j 0 =
          (cell.getD (ty + i) []).getD (tx + j) 0)) := by
  constructor
  · rw [(extract_student_answers_spec img hs vs margin nQ fmt).1, List.getElem?_map,
      List.getElem?_range hq]
    rfl
  · intro cell ty tx hrect hty htx
    subst hty htx
    set h := cell.length with hh
    set w := (cell.headD []).length with hw
    set ty := (pyInt ((h : ℚ) * margin / 100)).toNat with htydef
    set tx := (pyInt ((w : ℚ) * margin / 100)).toNat with htxdef
    have htrim : trim_cell_borders cell margin = slice2d cell ty (h - ty) tx (w - tx) :=
      trim_cell_borders_eq cell margin
    refine ⟨?_, ?_, ?_⟩
    · rw [htrim, slice2d_length]
      omega
    · intro row hrow
      rw [htrim] at hrow
      unfold slice2d at hrow
      rcases List.mem_map.mp hrow with ⟨r, hr, hfr⟩
      have hrcell : r ∈ cell := List.mem_of_mem_drop (List.mem_of_mem_take hr)
      have hrlen : r.length = w := hrect r hrcell
      rw [← hfr]
      simp only [List.length_take, List.length_drop, hrlen]
      omega
    · intro i j hi hj
      have hi2 : i < (h - ty) - ty := by omega
      have hyi : ty + i < h := by omega
      have hcell : cell[ty + i]? = some cell[ty + i] := List.getElem?_eq_getElem hyi
      have hj2 : j < (w - tx) - tx := by omega
      simp only [List.getD_eq_getElem?_getD]
      rw [htrim, slice2d_getElem? cell ty (h - ty) tx (w - tx) i hi2, hcell]
      simp only [Option.map_some', Option.getD_some]
      rw [List.getElem?_take_of_lt hj2, List.getElem?_drop]

/-- Witness for C1 at a concrete page: a 4x4 image with two separators per
axis (one question, one answer option in columns=questions format), margin
20 percent; the trim of the inked 2x2 answer cell loses zero pixels per
side (int(2 * 20 / 100) = 0), and the answer slot holds the resolution of
the trimmed-and-classified cells. -/
theorem C1_witness :
    ((extract_student_answers [[0, 0, 0, 0], [0, 0, 0, 0], [0, 0, 255, 255], [0, 0, 255, 255]]
        [0, 2, 4] [0, 2, 4] 20 1 "columns=questions").1[0]? =
      some (resolve_answer
        ((get_question_cells (extract_cell_regions
            [[0, 0, 0, 0], [0, 0, 0, 0], [0, 0, 255, 255], [0, 0, 255, 255]] [0, 2, 4] [0, 2, 4])
          0 "columns=questions").map
          (fun cell => detect_filled_cell (trim_cell_borders cell 20) (3 / 20))))) ∧
    (trim_cell_borders [[255, 255], [255, 255]] 20).length = 2 - 2 * 0 ∧
    (∀ row ∈ trim_cell_borders [[255, 255], [255, 255]] 20, row.length = 2 - 2 * 0) ∧
    ((trim_cell_borders [[255, 255], [255, 255]] 20).getD 0 []).getD 0 0 =
      (([[255, 255], [255, 255]] : List (List ℕ)).getD (0 + 0) []).getD (0 + 0) 0 := by
  have h := C1_trim_before_classify
    [[0, 0, 0, 0], [0, 0, 0, 0], [0, 0, 255, 255], [0, 0, 255, 255]]
    [0, 2, 4] [0, 2, 4] 20 1 "columns=questions" 0 (by decide)
  have h2 := h.2 [[255, 255], [255, 255]] 0 0 (by decide)
    (by norm_num [pyInt]) (by norm_num [pyInt])
  exact ⟨h.1, h2.1, h2.2.1, h2.2.2 0 0 (by decide) (by decide)⟩

/-- Every filled-option index lies below the enumeration offset plus the
option count. -/
theorem filledIndices_lt (l : List Bool) (n : ℕ) :
    ∀ j ∈ ((l.enumFrom n).filter (fun p => p.2)).map (fun p => p.1), j < n + l.length := by
  intro j hj
  rcases List.mem_map.mp hj with ⟨p, hpf, rfl⟩
  obtain ⟨i, b⟩ := p
  have hpe : (i, b) ∈ l.enumFrom n := List.mem_of_mem_filter hpf
  obtain ⟨hn, hget⟩ := List.mk_mem_enumFrom_iff_le_and_getElem?_sub.mp hpe
  obtain ⟨hlt, -⟩ := List.getElem?_eq_some.mp hget
  simpa using by omega

/-- The filled-index list has one entry per true option, and when exactly
one option is true it is the singleton of that option's position. -/
theorem filledIndices_count : ∀ (l : List Bool) (n : ℕ),
    ((((l.enumFrom n).filter (fun p => p.2)).map (fun p => p.1)).length = l.count true) ∧
    (∀ i, l[i]? = some true → l.count true = 1 →
      ((l.enumFrom n).filter (fun p => p.2)).map (fun p => p.1) = [n + i])
  | [], n => by
      refine ⟨by simp, ?_⟩
      intro i hi
      simp at hi
  | x :: xs, n => by
      have ih := filledIndices_count xs (n + 1)
      cases x with
      | true =>
          refine ⟨by simpa [List.count_cons] using ih.1, ?_⟩
          intro i hi hcount
          match i with
          | 0 =>
              have hxs : xs.count true = 0 := by
                simpa [List.count_cons] using hcount
              have hlen := ih.1
              rw [hxs] at hlen
              have hnil := List.length_eq_zero.mp hlen
              simp [hnil]
          | k + 1 =>
              exfalso
              have hmem : true ∈ xs := List.getElem?_mem (by simpa using hi)
              have hpos : 0 < xs.count true := List.count_pos_iff.mpr hmem
              have : xs.count true = 0 := by
                simpa [List.count_cons] using hcount
              omega
      | false =>
          refine ⟨by simpa [List.count_cons] using ih.1, ?_⟩
          intro i hi hcount
          match i with
          | 0 => simp at hi
          | k + 1 =>
              have hx : xs[k]? = some true := by simpa using hi
              have hc : xs.count true = 1 := by simpa [List.count_cons] using hcount
              have h2 := ih.2 k hx hc
              rw [show n + 1 + k = n + (k + 1) by omega] at h2
              simpa using h2

/-- Claim C2: answer resolution is total and deterministic on boolean
option lists of any length: zero filled options give -1, exactly one gives
that option's index, two or more give -2; every input maps to exactly one
code in {-1, -2} or [0, length); and a -2 code sets the page-level
ambiguous flag of extract_student_answers. Determinism holds definitionally
(resolve_answer is a pure function of its argument). -/
theorem C2_resolve_answer_total (filled : List Bool) :
    (filled.count true = 0 → resolve_answer filled = -1) ∧
    (∀ (i : ℕ), filled[i]? = some true → filled.count true = 1 →
      resolve_answer filled = (i : ℤ)) ∧
    (2 ≤ filled.count true → resolve_answer filled = -2) ∧
    (resolve_answer filled = -1 ∨ resolve_answer filled = -2 ∨
      ∃ i, i < filled.length ∧ resolve_answer filled = (i : ℤ)) ∧
    (resolve_answer filled = resolve_answer filled) ∧
    (∀ (img : List (List ℕ)) (hs vs : List ℕ) (m : ℚ) (nQ : ℕ) (fmt : String),
      (-2 : ℤ) ∈ (extract_student_answers img hs vs m nQ fmt).1 →
      (extract_student_answers img hs vs m nQ fmt).2 = true) := by
  have hlen := (filledIndices_count filled 0).1
  refine ⟨?_, ?_, ?_, ?_, rfl, ?_⟩
  · intro h0
    unfold resolve_answer List.enum
    dsimp only
    rw [if_pos (by rw [hlen]; exact h0)]
  · intro i hi hcount
    have h1 := (filledIndices_count filled 0).2 i hi hcount
    unfold resolve_answer List.enum
    dsimp only
    rw [h1]
    norm_num
  · intro h2
    unfold resolve_answer List.enum
    dsimp only
    rw [if_neg (by omega), if_neg (by omega)]
  · unfold resolve_answer List.enum
    dsimp only
    by_cases h0 : ((filled.enumFrom 0).filter (fun p => p.2)).map (fun p => p.1) = []
    · left
      rw [if_pos (by simp [h0])]
    · by_cases h1 : (((filled.enumFrom 0).filter (fun p => p.2)).map (fun p => p.1)).length = 1
      · right; right
        obtain ⟨j, hj⟩ := List.length_eq_one.mp h1
        refine ⟨j, ?_, ?_⟩
        · have hjlt := filledIndices_lt filled 0 j (by rw [hj]; simp)
          omega
        · rw [if_neg (by simp [h1]), if_pos h1, hj]
          norm_num
      · right; left
        rw [if_neg (by simpa using fun h => h0 (List.length_eq_zero.mp h)), if_neg h1]
  · intro img hs vs m nQ fmt hmem
    exact (extract_student_answers_spec img hs vs m nQ fmt).2.mpr hmem

/-- Witness for C2 at concrete inputs: [false, false] resolves to -1,
[false, true, false] to 1, [true, true] to -2, and the concrete ambiguous
page of two inked cells in one question sets the page flag. -/
theorem C2_witness :
    resolve_answer [false, false] = -1 ∧
    resolve_answer [false, true, false] = 1 ∧
    resolve_answer [true, true] = -2 ∧
    (extract_student_answers
      [[0, 0, 0, 0, 0, 0], [0, 0, 0, 0, 0, 0],
       [0, 0, 255, 255, 255, 255], [0, 0, 255, 255, 255, 255]]
      [0, 2, 4] [0, 2, 4, 6] 0 1 "rows=questions").2 = true := by
  refine ⟨?_, ?_, ?_, ?_⟩
  · exact (C2_resolve_answer_total [false, false]).1 (by decide)
  · exact (C2_resolve_answer_total [false, true, false]).2.1 1 (by decide) (by decide)
  · exact (C2_resolve_answer_total [true, true]).2.2.1 (by decide)
  · apply (C2_resolve_answer_total []).2.2.2.2.2
      [[0, 0, 0, 0, 0, 0], [0, 0, 0, 0, 0, 0],
       [0, 0, 255, 255, 255, 255], [0, 0, 255, 255, 255, 255]]
      [0, 2, 4] [0, 2, 4, 6] 0 1 "rows=questions"
    rw [(extract_student_answers_spec
      [[0, 0, 0, 0, 0, 0], [0, 0, 0, 0, 0, 0],
       [0, 0, 255, 255, 255, 255], [0, 0, 255, 255, 255, 255]]
      [0, 2, 4] [0, 2, 4, 6] 0 1 "rows=questions").1]
    have hcells : get_question_cells (extract_cell_regions
        [[0, 0, 0, 0, 0, 0], [0, 0, 0, 0, 0, 0],
         [0, 0, 255, 255, 255, 255], [0, 0, 255, 255, 255, 255]]
        [0, 2, 4] [0, 2, 4, 6]) 0 "rows=questions" =
        [[[255, 255], [255, 255]], [[255, 255], [255, 255]]] := by rfl
    have htrim : trim_cell_borders [[255, 255], [255, 255]] (0 : ℚ) =
        [[255, 255], [255, 255]] := by
      unfold trim_cell_borders slice2d
      norm_num [pyInt]
    have hdet : detect_filled_cell [[255, 255], [255, 255]] (3 / 20) = true := by
      unfold detect_filled_cell cellSize countInk
      norm_num
    have hres : resolve_answer [true, true] = -2 :=
      (C2_resolve_answer_total [true, true]).2.2.1 (by decide)
    simp only [List.range_succ, List.range_zero, List.nil_append, List.map_cons, List.map_nil,
      hcells, htrim, hdet, hres]
    exact List.mem_singleton.mpr rfl

/-- A yielded window peak lies at or after the clamped window start and
strictly before the clamped window end. -/
theorem usEntry_bounds {signal : List ℚ} {size : ℕ} {spacing : ℚ} {ws : ℤ} {i v : ℕ}
    (h : usEntry signal size spacing ws i = some v) :
    (max 0 (pyInt ((i : ℚ) * spacing - (ws : ℚ)))).toNat ≤ v ∧
    (v : ℤ) < min (size : ℤ) (pyInt ((i : ℚ) * spacing + (ws : ℚ))) := by
  unfold usEntry at h
  dsimp only at h
  set ss := (max 0 (pyInt ((i : ℚ) * spacing - (ws : ℚ)))).toNat with hss
  set se := min (size : ℤ) (pyInt ((i : ℚ) * spacing + (ws : ℚ))) with hse
  by_cases hlt : (ss : ℤ) < se
  · rw [if_pos hlt] at h
    set win := (signal.drop ss).take (se.toNat - ss) with hwin
    have hv : ss + argmaxIdx id 0 win = v := Option.some.inj h
    by_cases hnil : win = []
    · rw [hnil] at hv
      simp only [argmaxIdx] at hv
      omega
    · have harg := argmaxIdx_lt_length id 0 win hnil
      have hwlen : win.length ≤ se.toNat - ss := by
        rw [hwin]
        simp only [List.length_take, List.length_drop]
        omega
      have hse0 : 0 ≤ se := le_of_lt (lt_of_le_of_lt (Int.natCast_nonneg ss) hlt)
      have hlt2 : (ss : ℤ) < (se.toNat : ℤ) := by
        rwa [Int.toNat_of_nonneg hse0]
      have : v < se.toNat := by omega
      constructor
      · omega
      · rw [← Int.toNat_of_nonneg hse0]
        exact_mod_cast this
  · rw [if_neg hlt] at h
    cases h

/-- Peaks yielded by windows around increasing expected positions are
strictly increasing when the half-width is the code's
`int(spacing * 0.4)`. -/
theorem usEntry_mono {signal : List ℚ} {size : ℕ} {spacing : ℚ} {i j u v : ℕ}
    (hsp : 0 ≤ spacing) (hij : i < j)
    (hu : usEntry signal size spacing (pyInt (spacing * (2 / 5))) i = some u)
    (hv : usEntry signal size spacing (pyInt (spacing * (2 / 5))) j = some v) :
    u < v := by
  set ws := pyInt (spacing * (2 / 5)) with hws
  have hws0 : 0 ≤ ws := pyInt_nonneg (by positivity)
  have hwsle : (ws : ℚ) ≤ spacing * (2 / 5) := pyInt_le (by positivity)
  have hiu := (usEntry_bounds hu).2
  have hjv := (usEntry_bounds hv).1
  have hj1 : (1 : ℚ) ≤ (j : ℚ) := by exact_mod_cast Nat.one_le_iff_ne_zero.mpr (by omega)
  have hji : (i : ℚ) + 1 ≤ (j : ℚ) := by exact_mod_cast hij
  have harg1 : (0 : ℚ) ≤ (i : ℚ) * spacing + (ws : ℚ) := by positivity
  have hkey : (i : ℚ) * spacing + (ws : ℚ) ≤ (j : ℚ) * spacing - (ws : ℚ) := by nlinarith
  have harg2 : (0 : ℚ) ≤ (j : ℚ) * spacing - (ws : ℚ) := le_trans harg1 hkey
  have hfloor : pyInt ((i : ℚ) * spacing + (ws : ℚ)) ≤ pyInt ((j : ℚ) * spacing - (ws : ℚ)) := by
    rw [pyInt_of_nonneg harg1, pyInt_of_nonneg harg2]
    exact Int.floor_le_floor hkey
  have hvge : (pyInt ((j : ℚ) * spacing - (ws : ℚ))) ≤ (v : ℤ) := by
    have h1 : ((max 0 (pyInt ((j : ℚ) * spacing - (ws : ℚ)))).toNat : ℤ) ≤ (v : ℤ) := by
      exact_mod_cast hjv
    have h2 : (0 : ℤ) ≤ max 0 (pyInt ((j : ℚ) * spacing - (ws : ℚ))) := le_max_left _ _
    rw [Int.toNat_of_nonneg h2] at h1
    exact le_trans (le_max_right _ _) h1
  have hule : (u : ℤ) < pyInt ((i : ℚ) * spacing + (ws : ℚ)) :=
    lt_of_lt_of_le hiu (min_le_right _ _)
  have : (u : ℤ) < (v : ℤ) := lt_of_lt_of_le hule (le_trans hfloor hvge)
  exact_mod_cast this

/-- A yielded window peak is below the axis size. -/
theorem usEntry_lt_size {signal : List ℚ} {size : ℕ} {spacing : ℚ} {ws : ℤ} {i v : ℕ}
    (h : usEntry signal size spacing ws i = some v) : v < size := by
  have h2 := (usEntry_bounds h).2
  have : (v : ℤ) < (size : ℤ) := lt_of_lt_of_le h2 (min_le_left _ _)
  exact_mod_cast this

/-- A filterMap over an increasing range with entrywise increasing values
is pairwise increasing. -/
theorem filterMap_range_pairwise {f : ℕ → Option ℕ} {n : ℕ}
    (h : ∀ i j u v, i < j → f i = some u → f j = some v → u < v) :
    ((List.range n).filterMap f).Pairwise (· < ·) := by
  induction n with
  | zero => simp
  | succ k ih =>
      rw [List.range_succ, List.filterMap_append]
      apply List.pairwise_append.mpr
      refine ⟨ih, ?_, ?_⟩
      · cases hk : f k <;> simp [List.filterMap_cons, hk]
      · intro a ha b hb
        obtain ⟨i, hi, hfi⟩ := List.mem_filterMap.mp ha
        have hik : i < k := List.mem_range.mp hi
        have hfb : f k = some b := by
          cases hk : f k <;> simp [List.filterMap_cons, hk] at hb
          rw [hb]
        exact h i k a b hik hfi hfb

/-- The expected separator count is always at least two (both edges). -/
theorem expectedCount_ge_two (axis : String) (nQ nA : ℕ) (fmt : String) :
    2 ≤ expectedCount axis nQ nA fmt := by
  unfold expectedCount
  split <;> split <;> omega

/-- The expected spacing is nonnegative. -/
theorem expectedSpacing_nonneg (size : ℕ) (ec : ℕ) (hec : 2 ≤ ec) :
    0 ≤ expectedSpacing size ec := by
  unfold expectedSpacing
  apply div_nonneg (by positivity)
  have : (2 : ℚ) ≤ (ec : ℚ) := by exact_mod_cast hec
  linarith

/-- Uniform-spacing extraction always yields a strictly increasing list of
coordinates below the axis size. -/
theorem uniform_spacing_sorted (signal : List ℚ) (size : ℕ) (axis : String)
    (nQ nA : ℕ) (fmt : String) :
    (extract_separators_uniform_spacing signal size axis nQ nA fmt).Pairwise (· < ·) ∧
    ∀ x ∈ extract_separators_uniform_spacing signal size axis nQ nA fmt, x < size := by
  have hsp := expectedSpacing_nonneg size (expectedCount axis nQ nA fmt)
    (expectedCount_ge_two axis nQ nA fmt)
  unfold extract_separators_uniform_spacing
  dsimp only
  constructor
  · apply filterMap_range_pairwise
    intro i j u v hij hu hv
    exact usEntry_mono hsp hij hu hv
  · intro x hx
    obtain ⟨i, _, hfi⟩ := List.mem_filterMap.mp hx
    exact usEntry_lt_size hfi

/-- A cluster centroid is at most any upper bound of the cluster. -/
theorem clusterCentroid_le_of {cluster : List ℕ} {b : ℕ} (hne : cluster ≠ [])
    (hub : ∀ x ∈ cluster, x ≤ b) : clusterCentroid cluster ≤ b := by
  unfold clusterCentroid
  have hsum : cluster.sum ≤ cluster.length * b := by
    simpa [smul_eq_mul] using List.sum_le_card_nsmul cluster b hub
  have hlen : 0 < cluster.length := List.length_pos.mpr hne
  calc cluster.sum / cluster.length ≤ cluster.length * b / cluster.length :=
        Nat.div_le_div_right hsum
    _ = b := Nat.mul_div_cancel_left b hlen

/-- A cluster centroid is at least any lower bound of the cluster. -/
theorem le_clusterCentroid_of {cluster : List ℕ} {a : ℕ} (hne : cluster ≠ [])
    (hlb : ∀ x ∈ cluster, a ≤ x) : a ≤ clusterCentroid cluster := by
  unfold clusterCentroid
  have hsum : cluster.length * a ≤ cluster.sum := by
    simpa [smul_eq_mul] using List.card_nsmul_le_sum cluster a hlb
  have hlen : 0 < cluster.length := List.length_pos.mpr hne
  rw [Nat.le_div_iff_mul_le hlen]
  calc a * cluster.length = cluster.length * a := Nat.mul_comm a cluster.length
    _ ≤ cluster.sum := hsum

/-- Every centroid emitted by the merge loop is at least any common lower
bound of the current cluster, the previous peak having bounded it. -/
theorem mergePeaksGo_lower : ∀ (rest cluster : List ℕ) (prev lo : ℕ),
    cluster ≠ [] → (∀ x ∈ cluster, lo ≤ x ∧ x ≤ prev) →
    List.Chain (· < ·) prev rest →
    ∀ y ∈ mergePeaksGo cluster prev rest, lo ≤ y
  | [], cluster, prev, lo, hne, hcl, _ => by
      intro y hy
      simp only [mergePeaksGo, List.mem_singleton] at hy
      subst hy
      exact le_clusterCentroid_of hne (fun x hx => (hcl x hx).1)
  | p :: ps, cluster, prev, lo, hne, hcl, hch => by
      intro y hy
      obtain ⟨hpp, hch2⟩ := List.chain_cons.mp hch
      obtain ⟨z, hz⟩ := List.exists_mem_of_ne_nil cluster hne
      have hlop : lo ≤ p := le_trans (hcl z hz).1 (le_trans (hcl z hz).2 (le_of_lt hpp))
      unfold mergePeaksGo at hy
      by_cases hgap : (p : ℤ) - (prev : ℤ) ≤ 5
      · rw [if_pos hgap] at hy
        refine mergePeaksGo_lower ps (cluster ++ [p]) p lo (by simp) ?_ hch2 y hy
        intro x hx
        rcases List.mem_append.mp hx with hx1 | hx2
        · exact ⟨(hcl x hx1).1, le_trans (hcl x hx1).2 (le_of_lt hpp)⟩
        · rw [List.mem_singleton.mp hx2]
          exact ⟨hlop, le_refl p⟩
      · rw [if_neg hgap] at hy
        rcases List.mem_cons.mp hy with hy1 | hy2
        · rw [hy1]
          exact le_clusterCentroid_of hne (fun x hx => (hcl x hx).1)
        · refine mergePeaksGo_lower ps [p] p lo (by simp) ?_ hch2 y hy2
          intro x hx
          rw [List.mem_singleton.mp hx]
          exact ⟨hlop, le_refl p⟩

/-- Every centroid emitted by the merge loop is below any strict upper
bound of the previous peak and the remaining peaks. -/
theorem mergePeaksGo_upper : ∀ (rest cluster : List ℕ) (prev n : ℕ),
    cluster ≠ [] → (∀ x ∈ cluster, x ≤ prev) → prev < n →
    List.Chain (· < ·) prev rest → (∀ x ∈ rest, x < n) →
    ∀ y ∈ mergePeaksGo cluster prev rest, y < n
  | [], cluster, prev, n, hne, hcl, hpn, _, _ => by
      intro y hy
      simp only [mergePeaksGo, List.mem_singleton] at hy
      subst hy
      exact lt_of_le_of_lt (clusterCentroid_le_of hne hcl) hpn
  | p :: ps, cluster, prev, n, hne, hcl, hpn, hch, hrest => by
      intro y hy
      obtain ⟨hpp, hch2⟩ := List.chain_cons.mp hch
      have hpn2 : p < n := hrest p (by simp)
      unfold mergePeaksGo at hy
      by_cases hgap : (p : ℤ) - (prev : ℤ) ≤ 5
      · rw [if_pos hgap] at hy
        refine mergePeaksGo_upper ps (cluster ++ [p]) p n (by simp) ?_ hpn2 hch2
          (fun x hx => hrest x (by simp [hx])) y hy
        intro x hx
        rcases List.mem_append.mp hx with hx1 | hx2
        · exact le_trans (hcl x hx1) (le_of_lt hpp)
        · rw [List.mem_singleton.mp hx2]
      · rw [if_neg hgap] at hy
        rcases List.mem_cons.mp hy with hy1 | hy2
        · rw [hy1]
          exact lt_of_le_of_lt (clusterCentroid_le_of hne hcl) hpn
        · refine mergePeaksGo_upper ps [p] p n (by simp) ?_ hpn2 hch2
            (fun x hx => hrest x (by simp [hx])) y hy2
          intro x hx
          rw [List.mem_singleton.mp hx]

/-- The merge loop emits a strictly increasing list of centroids. -/
theorem mergePeaksGo_sorted : ∀ (rest cluster : List ℕ) (prev : ℕ),
    cluster ≠ [] → (∀ x ∈ cluster, x ≤ prev) →
    List.Chain (· < ·) prev rest →
    (mergePeaksGo cluster prev rest).Pairwise (· < ·)
  | [], cluster, prev, _, _, _ => by
      simp [mergePeaksGo]
  | p :: ps, cluster, prev, hne, hcl, hch => by
      obtain ⟨hpp, hch2⟩ := List.chain_cons.mp hch
      unfold mergePeaksGo
      by_cases hgap : (p : ℤ) - (prev : ℤ) ≤ 5
      · rw [if_pos hgap]
        refine mergePeaksGo_sorted ps (cluster ++ [p]) p (by simp) ?_ hch2
        intro x hx
        rcases List.mem_append.mp hx with hx1 | hx2
        · exact le_trans (hcl x hx1) (le_of_lt hpp)
        · rw [List.mem_singleton.mp hx2]
      · rw [if_neg hgap]
        apply List.pairwise_cons.mpr
        constructor
        · intro y hy
          have hylow : p ≤ y := by
            refine mergePeaksGo_lower ps [p] p p (by simp) ?_ hch2 y hy
            intro x hx
            rw [List.mem_singleton.mp hx]
            exact ⟨le_refl p, le_refl p⟩
          have hcp : clusterCentroid cluster ≤ prev := clusterCentroid_le_of hne hcl
          omega
        · refine mergePeaksGo_sorted ps [p] p (by simp) ?_ hch2
          intro x hx
          rw [List.mem_singleton.mp hx]

/-- merge_peaks of a strictly increasing, bounded peak list is strictly
increasing and bounded. -/
theorem merge_peaks_sorted_bounded {peaks : List ℕ} {n : ℕ}
    (hs : peaks.Pairwise (· < ·)) (hb : ∀ x ∈ peaks, x < n) :
    (merge_peaks peaks).Pairwise (· < ·) ∧ ∀ y ∈ merge_peaks peaks, y < n := by
  cases peaks with
  | nil => simp [merge_peaks]
  | cons p ps =>
      have hch : List.Chain (· < ·) p ps := by
        have h1 : List.Chain' (· < ·) (p :: ps) := List.chain'_iff_pairwise.mpr hs
        exact h1
      unfold merge_peaks
      exact ⟨mergePeaksGo_sorted ps [p] p (by simp) (by simp) hch,
        mergePeaksGo_upper ps [p] p n (by simp) (by simp) (hb p (by simp)) hch
          (fun x hx => hb x (by simp [hx]))⟩

/-- Peak-detection fallback: any successfully returned separator list is
strictly increasing with all coordinates below the signal length. -/
theorem peak_detection_sorted {signal : List ℚ} {l : List ℕ}
    (h : extract_separators_peak_detection signal = Except.ok l) :
    l.Pairwise (· < ·) ∧ ∀ x ∈ l, x < signal.length := by
  unfold extract_separators_peak_detection at h
  dsimp only at h
  set peaks := (List.range signal.length).filter
    (fun i => decide ((3 : ℚ) / 10 < signal.getD i 0)) with hpeaks
  by_cases hemp : peaks.isEmpty
  · rw [if_pos hemp] at h
    cases h
  · rw [if_neg hemp] at h
    have hl : l = merge_peaks peaks := (Except.ok.inj h).symm
    have hsorted : peaks.Pairwise (· < ·) :=
      List.Pairwise.sublist (List.filter_sublist _) (List.pairwise_lt_range _)
    have hbound : ∀ x ∈ peaks, x < signal.length := by
      intro x hx
      exact List.mem_range.mp (List.mem_of_mem_filter hx)
    rw [hl]
    exact merge_peaks_sorted_bounded hsorted hbound

/-- Claim C5: every separator list returned by extract_separators, in
uniform-spacing mode as well as in fallback peak-detection mode, is a
strictly increasing sequence of coordinates within [0, size), where size is
the mask dimension along the chosen axis (coordinates are naturals, hence
nonnegative). -/
theorem C5_extract_separators_strictly_increasing (grid_mask : List (List ℕ))
    (axis : String) (nQ nA : ℕ) (fmt : String) (l : List ℕ)
    (h : extract_separators grid_mask axis nQ nA fmt = Except.ok l) :
    l.Pairwise (· < ·) ∧ ∀ x ∈ l, x < sepAxisSize grid_mask axis := by
  unfold extract_separators at h
  by_cases haxis : axis = "horizontal" ∨ axis = "vertical"
  · rw [if_pos haxis] at h
    dsimp only at h
    set signal0 : List ℚ :=
      if axis = "horizontal" then grid_mask.map (fun row => (row.sum : ℚ))
      else (List.range (maskWidth grid_mask)).map (fun j => (maskColSum grid_mask j : ℚ))
      with hsignal0
    by_cases hemp : signal0.isEmpty
    · rw [if_pos hemp] at h
      cases h
    · rw [if_neg hemp] at h
      set mx := signal0.foldr max 0 with hmx
      set signal := if 0 < mx then signal0.map (fun s => s / mx) else signal0 with hsig
      have hslen : signal.length = sepAxisSize grid_mask axis := by
        have h0 : signal.length = signal0.length := by
          rw [hsig]
          split <;> simp
        rw [h0, hsignal0]
        unfold sepAxisSize
        split <;> simp
      by_cases hguard : nQ ≠ 0 ∧ nA ≠ 0 ∧ fmt ≠ ""
      · rw [if_pos hguard] at h
        have hl : l = extract_separators_uniform_spacing signal
            (sepAxisSize grid_mask axis) axis nQ nA fmt := (Except.ok.inj h).symm
        rw [hl]
        exact uniform_spacing_sorted signal (sepAxisSize grid_mask axis) axis nQ nA fmt
      · rw [if_neg hguard] at h
        have hres := peak_detection_sorted h
        rw [hslen] at hres
        exact hres
  · rw [if_neg haxis] at h
    cases h

/-- Witness for C5 at a concrete mask: a 6x1 all-background mask with one
question and one answer in columns=questions format takes the
uniform-spacing branch and returns [0, 2, 5], which is strictly increasing
and within [0, 6). -/
theorem C5_witness :
    extract_separators [[0], [0], [0], [0], [0], [0]] "horizontal" 1 1 "columns=questions" =
      Except.ok [0, 2, 5] ∧
    ([0, 2, 5] : List ℕ).Pairwise (· < ·) ∧
    ∀ x ∈ ([0, 2, 5] : List ℕ),
      x < sepAxisSize [[0], [0], [0], [0], [0], [0]] "horizontal" := by
  have hsp : expectedSpacing 6 3 = 3 := by
    unfold expectedSpacing
    norm_num
  have hws : windowSize 6 3 = 1 := by
    unfold windowSize
    rw [hsp]
    unfold pyInt
    norm_num
  have he0 : usEntry [0, 0, 0, 0, 0, 0] 6 (expectedSpacing 6 3) (windowSize 6 3) 0 = some 0 := by
    rw [hsp, hws]
    unfold usEntry
    norm_num [pyInt, argmaxIdx]
  have he1 : usEntry [0, 0, 0, 0, 0, 0] 6 (expectedSpacing 6 3) (windowSize 6 3) 1 = some 2 := by
    rw [hsp, hws]
    unfold usEntry
    norm_num [pyInt, argmaxIdx]
    decide
  have he2 : usEntry [0, 0, 0, 0, 0, 0] 6 (expectedSpacing 6 3) (windowSize 6 3) 2 = some 5 := by
    rw [hsp, hws]
    unfold usEntry
    norm_num [pyInt, argmaxIdx]
    decide
  have heq : extract_separators [[0], [0], [0], [0], [0], [0]] "horizontal" 1 1
      "columns=questions" = Except.ok [0, 2, 5] := by
    unfold extract_separators
    rw [if_pos (Or.inl rfl)]
    dsimp only
    norm_num [sepAxisSize, maskWidth]
    rw [if_neg (by decide)]
    unfold extract_separators_uniform_spacing
    rw [show expectedCount "horizontal" 1 1 "columns=questions" = 3 from rfl]
    dsimp only
    rw [show List.range 3 = [0, 1, 2] from rfl]
    simp only [List.filterMap_cons, he0, he1, he2, List.filterMap_nil]
  exact ⟨heq,
    (C5_extract_separators_strictly_increasing _ _ _ _ _ _ heq).1,
    (C5_extract_separators_strictly_increasing _ _ _ _ _ _ heq).2⟩

/-- Under exact divisibility the expected spacing is the integer line
pitch. -/
theorem expectedSpacing_of_dvd (m ec : ℕ) (hec : 2 ≤ ec) :
    expectedSpacing (m * (ec - 1)) ec = (m : ℚ) := by
  unfold expectedSpacing
  have h1 : ((ec : ℚ) - 1) = ((ec - 1 : ℕ) : ℚ) := by
    push_cast [Nat.cast_sub (by omega : 1 ≤ ec)]
    ring
  have h2 : ((ec - 1 : ℕ) : ℚ) ≠ 0 := Nat.cast_ne_zero.mpr (by omega)
  rw [h1, show ((m * (ec - 1) : ℕ) : ℚ) = (m : ℚ) * ((ec - 1 : ℕ) : ℚ) by push_cast; ring,
    mul_div_assoc, div_self h2, mul_one]

/-- Under exact divisibility the window half-width is the natural floor of
two fifths of the pitch. -/
theorem windowSize_of_dvd (m ec : ℕ) (hec : 2 ≤ ec) :
    windowSize (m * (ec - 1)) ec = ((2 * m / 5 : ℕ) : ℤ) := by
  unfold windowSize
  rw [expectedSpacing_of_dvd m ec hec,
    show (m : ℚ) * (2 / 5) = ((2 * m : ℕ) : ℚ) / ((5 : ℕ) : ℚ) by push_cast; ring,
    pyInt_of_nonneg (by positivity), Rat.floor_natCast_div_natCast]
  exact_mod_cast rfl

/-- When the axis length is an exact multiple of the line pitch (at least
3 pixels) every search window is nonempty, so every expected position
yields a peak. -/
theorem usEntry_isSome_of_uniform {signal : List ℚ} {m ec : ℕ} (hm : 3 ≤ m) (hec : 2 ≤ ec)
    {i : ℕ} (hi : i < ec) :
    (usEntry signal (m * (ec - 1)) (m : ℚ) ((2 * m / 5 : ℕ) : ℤ) i).isSome := by
  unfold usEntry
  dsimp only
  set w : ℕ := 2 * m / 5 with hwdef
  have hw1 : 1 ≤ w := by
    rw [hwdef, Nat.le_div_iff_mul_le (by norm_num)]
    omega
  have hwm : w < m := by
    rw [hwdef, Nat.div_lt_iff_lt_mul (by norm_num)]
    omega
  have hcast1 : (i : ℚ) * (m : ℚ) - ((w : ℤ) : ℚ) = ((((i * m : ℕ) : ℤ) - (w : ℤ) : ℤ) : ℚ) := by
    push_cast
    ring
  have hcast2 : (i : ℚ) * (m : ℚ) + ((w : ℤ) : ℚ) = ((((i * m : ℕ) : ℤ) + (w : ℤ) : ℤ) : ℚ) := by
    push_cast
    ring
  rw [hcast1, hcast2, pyInt_intCast, pyInt_intCast]
  have hpsize : i * m ≤ m * (ec - 1) := by
    calc i * m ≤ (ec - 1) * m := Nat.mul_le_mul_right m (by omega)
      _ = m * (ec - 1) := Nat.mul_comm _ _
  have hsz : 3 ≤ m * (ec - 1) := le_trans hm (Nat.le_mul_of_pos_right m (by omega))
  have hmp : 1 ≤ i → m ≤ i * m := by
    intro h1
    calc m = 1 * m := (Nat.one_mul m).symm
      _ ≤ i * m := Nat.mul_le_mul_right m h1
  have hcond : (((max 0 (((i * m : ℕ) : ℤ) - (w : ℤ))).toNat : ℤ) <
      min ((m * (ec - 1) : ℕ) : ℤ) (((i * m : ℕ) : ℤ) + (w : ℤ))) := by
    rw [Int.toNat_of_nonneg (le_max_left 0 _), lt_min_iff]
    rcases Nat.eq_zero_or_pos i with h0 | h1
    · subst h0
      constructor
      · rw [max_lt_iff]
        constructor <;> [exact_mod_cast (by omega : (0 : ℕ) < m * (ec - 1)); omega]
      · rw [max_lt_iff]
        constructor <;> omega
    · have hms := hmp h1
      constructor
      · rw [max_lt_iff]
        constructor
        · exact_mod_cast (by omega : (0 : ℕ) < m * (ec - 1))
        · have h3 : ((i * m : ℕ) : ℤ) ≤ ((m * (ec - 1) : ℕ) : ℤ) := by exact_mod_cast hpsize
          omega
      · rw [max_lt_iff]
        constructor <;> omega
  rw [if_pos hcond]
  rfl

/-- A filterMap whose entries are all present keeps the list length. -/
theorem filterMap_length_of_isSome {f : ℕ → Option ℕ} : ∀ {l : List ℕ},
    (∀ i ∈ l, (f i).isSome) → (l.filterMap f).length = l.length
  | [], _ => rfl
  | x :: xs, h => by
      have hx := h x (by simp)
      obtain ⟨v, hv⟩ := Option.isSome_iff_exists.mp hx
      rw [List.filterMap_cons, hv]
      simp only [List.length_cons]
      rw [filterMap_length_of_isSome (fun i hi => h i (by simp [hi]))]

/-- When all entries of a filterMap over a range are present, the k-th
output is the k-th entry. -/
theorem filterMap_range_getElem?_eq {f : ℕ → Option ℕ} {n k c : ℕ}
    (hall : ∀ i ∈ List.range n, (f i).isSome)
    (h : ((List.range n).filterMap f)[k]? = some c) : f k = some c := by
  have hcongr : ∀ i ∈ List.range n, f i = some ((f i).getD 0) := by
    intro i hi
    obtain ⟨v, hv⟩ := Option.isSome_iff_exists.mp (hall i hi)
    rw [hv]
    rfl
  rw [List.filterMap_congr hcongr,
    show (fun x => some ((f x).getD 0)) = some ∘ (fun x => (f x).getD 0) from rfl,
    List.filterMap_eq_map, List.getElem?_map] at h
  rcases hk : (List.range n)[k]? with _ | i
  · rw [hk] at h
    cases h
  · rw [hk] at h
    have hkn : k < n := by
      by_contra hge
      rw [List.getElem?_eq_none (by simpa using hge)] at hk
      cases hk
    have hki : i = k := by
      have := List.getElem?_range hkn
      rw [this] at hk
      exact (Option.some.inj hk).symm
    subst hki
    have hc : (f i).getD 0 = c := Option.some.inj h
    rw [hcongr i (List.mem_range.mpr hkn), hc]

/-- Claim C4: when the axis length is an exact multiple (pitch at least 3)
of the expected line count minus one, as for a synthetic uniformly ruled
grid, uniform-spacing extraction returns exactly expected_count
coordinates, the k-th lying within the search-window half-width
int(0.4 * size / (expected_count - 1)) of its expected position
k * size / (expected_count - 1); expected_count is num_answers + 2 or
num_questions + 2 according to axis and table format (expectedCount). -/
theorem C4_uniform_spacing_extraction (signal : List ℚ) (axis fmt : String) (nQ nA m : ℕ)
    (hm : 3 ≤ m) (size : ℕ)
    (hsize : size = m * (expectedCount axis nQ nA fmt - 1)) :
    (extract_separators_uniform_spacing signal size axis nQ nA fmt).length =
      expectedCount axis nQ nA fmt ∧
    ∀ (k c : ℕ),
      (extract_separators_uniform_spacing signal size axis nQ nA fmt)[k]? = some c →
      |(c : ℚ) - (k : ℚ) * expectedSpacing size (expectedCount axis nQ nA fmt)| ≤
        ((windowSize size (expectedCount axis nQ nA fmt)) : ℚ) := by
  have hec2 : 2 ≤ expectedCount axis nQ nA fmt := expectedCount_ge_two axis nQ nA fmt
  set ec := expectedCount axis nQ nA fmt with hec
  subst hsize
  have hsp := expectedSpacing_of_dvd m ec hec2
  have hws := windowSize_of_dvd m ec hec2
  unfold extract_separators_uniform_spacing
  dsimp only
  rw [← hec, hsp, hws]
  have hall : ∀ i ∈ List.range ec,
      (usEntry signal (m * (ec - 1)) (m : ℚ) ((2 * m / 5 : ℕ) : ℤ) i).isSome :=
    fun i hi => usEntry_isSome_of_uniform hm hec2 (List.mem_range.mp hi)
  constructor
  · rw [filterMap_length_of_isSome hall, List.length_range]
  · intro k c hkc
    have hfk := filterMap_range_getElem?_eq hall hkc
    obtain ⟨hb1, hb2⟩ := usEntry_bounds hfk
    set w : ℕ := 2 * m / 5 with hwdef
    have hcast1 : pyInt ((k : ℚ) * (m : ℚ) - (((w : ℕ) : ℤ) : ℚ)) = ((k * m : ℕ) : ℤ) - (w : ℤ) := by
      rw [show (k : ℚ) * (m : ℚ) - (((w : ℕ) : ℤ) : ℚ) =
        ((((k * m : ℕ) : ℤ) - (w : ℤ) : ℤ) : ℚ) by push_cast; ring, pyInt_intCast]
    have hcast2 : pyInt ((k : ℚ) * (m : ℚ) + (((w : ℕ) : ℤ) : ℚ)) = ((k * m : ℕ) : ℤ) + (w : ℤ) := by
      rw [show (k : ℚ) * (m : ℚ) + (((w : ℕ) : ℤ) : ℚ) =
        ((((k * m : ℕ) : ℤ) + (w : ℤ) : ℤ) : ℚ) by push_cast; ring, pyInt_intCast]
    rw [hcast1] at hb1
    rw [hcast2] at hb2
    have h1 : ((k * m : ℕ) : ℤ) - (w : ℤ) ≤ (c : ℤ) := by
      have h1a : ((max 0 (((k * m : ℕ) : ℤ) - (w : ℤ))).toNat : ℤ) ≤ (c : ℤ) := by
        exact_mod_cast hb1
      rw [Int.toNat_of_nonneg (le_max_left 0 _)] at h1a
      exact le_trans (le_max_right 0 _) h1a
    have h2 : (c : ℤ) < ((k * m : ℕ) : ℤ) + (w : ℤ) := lt_of_lt_of_le hb2 (min_le_right _ _)
    rw [abs_le]
    constructor
    · have h1q : (((k * m : ℕ) : ℤ) : ℚ) - ((w : ℤ) : ℚ) ≤ ((c : ℤ) : ℚ) := by
        exact_mod_cast h1
      push_cast at h1q ⊢
      linarith
    · have h2q : ((c : ℤ) : ℚ) < (((k * m : ℕ) : ℤ) : ℚ) + ((w : ℤ) : ℚ) := by
        exact_mod_cast h2
      push_cast at h2q ⊢
      linarith

/-- Witness for C4 at a concrete signal: size 6, one question and one
answer in columns=questions format (expected count 3, pitch 3): exactly 3
coordinates are returned and the middle one, 2, lies within the window
half-width 1 of its expected position 3. -/
theorem C4_witness :
    (extract_separators_uniform_spacing [0, 0, 0, 0, 0, 0] 6 "horizontal" 1 1
      "columns=questions").length = 3 ∧
    |((2 : ℚ)) - (1 : ℚ) * expectedSpacing 6 3| ≤ ((windowSize 6 3) : ℚ) := by
  have h := C4_uniform_spacing_extraction [0, 0, 0, 0, 0, 0] "horizontal" "columns=questions"
    1 1 3 (by norm_num) 6 (by decide)
  have hsp : expectedSpacing 6 3 = 3 := by
    unfold expectedSpacing
    norm_num
  have hws : windowSize 6 3 = 1 := by
    unfold windowSize
    rw [hsp]
    unfold pyInt
    norm_num
  have he0 : usEntry [0, 0, 0, 0, 0, 0] 6 (expectedSpacing 6 3) (windowSize 6 3) 0 = some 0 := by
    rw [hsp, hws]
    unfold usEntry
    norm_num [pyInt, argmaxIdx]
  have he1 : usEntry [0, 0, 0, 0, 0, 0] 6 (expectedSpacing 6 3) (windowSize 6 3) 1 = some 2 := by
    rw [hsp, hws]
    unfold usEntry
    norm_num [pyInt, argmaxIdx]
    decide
  have he2 : usEntry [0, 0, 0, 0, 0, 0] 6 (expectedSpacing 6 3) (windowSize 6 3) 2 = some 5 := by
    rw [hsp, hws]
    unfold usEntry
    norm_num [pyInt, argmaxIdx]
    decide
  have hval : extract_separators_uniform_spacing [0, 0, 0, 0, 0, 0] 6 "horizontal" 1 1
      "columns=questions" = [0, 2, 5] := by
    unfold extract_separators_uniform_spacing
    rw [show expectedCount "horizontal" 1 1 "columns=questions" = 3 from rfl]
    dsimp only
    rw [show List.range 3 = [0, 1, 2] from rfl]
    simp only [List.filterMap_cons, he0, he1, he2, List.filterMap_nil]
  exact ⟨h.1, h.2 1 2 (by rw [hval]; rfl)⟩
